import Mathlib

/-!
Shallow embedding of taggo (main.go), a generator of Exuberant-Ctags
compatible tag files for Go source, together with proofs about its
declaration classifier, line resolver, tag synthesizer and emission
pipeline.

Modelling conventions:
* Go byte strings are modelled as `List Char` (one `Char` per byte for the
  ASCII fragment; UTF-8 byte order agrees with code-point order, so the
  lexicographic comparison below coincides with Go's byte-wise `<`).
* `go/ast` declaration nodes are modelled by the inductive types below,
  keeping exactly the fields `main.go` reads.
* The file system is a partial map from path to content
  (`none` = the file cannot be opened).
* Machine `int` line numbers are modelled as `Int`; the reader loop of
  `contentOfLine` is modelled with explicit fuel so that its (non-)
  termination can be stated.
-/

namespace Taggo

/-- Header pragma constants of main.go. -/
def TAG_FILE_FORMAT : String := "!_TAG_FILE_FORMAT\t2"

/-- Header pragma: sorted flag. -/
def TAG_FILE_SORTED : String := "!_TAG_FILE_SORTED\t1"

/-- Header pragma: author. -/
def TAG_PROGRAM_AUTHOR : String := "!_TAG_PROGRAM_AUTHOR\tArjen Laarhoven"

/-- Header pragma: program name. -/
def TAG_PROGRAM_NAME : String := "!_TAG_PROGRAM_NAME\ttaggo"

/-- Header pragma: program URL. -/
def TAG_PROGRAM_URL : String := "!_TAG_PROGRAM_URL\thttps://github.com/ArjenL/taggo"

/-- Kind character for interfaces. -/
def CLASS : Char := 'c'

/-- Kind character for constants. -/
def CONST : Char := 'd'

/-- Kind character for functions and methods. -/
def FUNC : Char := 'f'

/-- Kind character for structure members. -/
def MEMBER : Char := 'm'

/-- Kind character for structures. -/
def STRUCT : Char := 's'

/-- Kind character for other named types. -/
def TYPE : Char := 't'

/-- Kind character for variables. -/
def VAR : Char := 'v'

/-- Resolved token position: `fset.Position(pos)` gives a file name and a
1-based line number (`Int`, since Go `int` can in principle be any value). -/
structure Pos where
  filename : String
  line : Int
deriving DecidableEq, Repr

/-- Type expressions as far as `typeName` inspects them: identifiers,
pointer types (`StarExpr`), selector chains (`SelectorExpr`), everything
else collapsed into `otherExpr`. -/
inductive GoExpr where
  | ident (name : String)
  | star (x : GoExpr)
  | sel (x : GoExpr) (selName : String)
  | otherExpr
deriving DecidableEq, Repr

/-- Embeds `typeName` of main.go: strip one level of `StarExpr`, then an
identifier yields its name, a selector yields the recursive name of its
operand joined with a dot, and anything else yields the empty string. -/
def typeName : GoExpr → String
  | .star (.ident n) => n
  | .star (.sel x s) => typeName x ++ "." ++ s
  | .star _ => ""
  | .ident n => n
  | .sel x s => typeName x ++ "." ++ s
  | .otherExpr => ""

/-- Argument tuple of one `emitTag` call: name, resolved position, kind
character and scope (`extra`) string. -/
structure RawTag where
  name : String
  pos : Pos
  kind : Char
  scope : String
deriving DecidableEq, Repr

/-- Function declaration as read by `funcDecl`: its name, the resolved
position of the declaration, and the type expression of the first
receiver-list entry when a receiver is present. -/
structure FuncDecl where
  name : String
  pos : Pos
  recv : Option GoExpr
deriving DecidableEq, Repr

/-- Embeds `funcDecl` of main.go: one Function tag; a receiver makes the
scope string equal to the string class-colon followed by the receiver
type name, otherwise the scope is empty. -/
def funcDecl (d : FuncDecl) : List RawTag :=
  let recvType : String :=
    match d.recv with
    | some t => "class:" ++ typeName t
    | none => ""
  [⟨d.name, d.pos, FUNC, recvType⟩]

/-- Declared type expression of a `TypeSpec` as far as `typeSpec` inspects
it: a struct with its field groups (each group a list of named
identifiers with their positions), an interface with its method groups,
or any other type expression.  Each variant carries the position
`st.Pos()` of the type expression itself. -/
inductive TypeExpr where
  | structType (pos : Pos) (fields : List (List (String × Pos)))
  | interfaceType (pos : Pos) (methods : List (List (String × Pos)))
  | otherType (pos : Pos)
deriving DecidableEq, Repr

/-- Type declaration spec: the declared name and its type expression. -/
structure TypeSpec where
  name : String
  ty : TypeExpr
deriving DecidableEq, Repr

/-- Embeds `typeSpec` of main.go: a struct yields a Struct tag plus one
Member tag per named field with struct-scope; an interface yields a Class
tag plus one Function tag per named method with class-scope; anything
else yields a single Type tag without scope. -/
def typeSpec (s : TypeSpec) : List RawTag :=
  match s.ty with
  | .structType p fields =>
      ⟨s.name, p, STRUCT, ""⟩ ::
        fields.flatMap (fun f => f.map (fun m => ⟨m.1, m.2, MEMBER, "struct:" ++ s.name⟩))
  | .interfaceType p methods =>
      ⟨s.name, p, CLASS, ""⟩ ::
        methods.flatMap (fun f => f.map (fun m => ⟨m.1, m.2, FUNC, "class:" ++ s.name⟩))
  | .otherType p => [⟨s.name, p, TYPE, ""⟩]

/-- Keyword token of a generic declaration group. -/
inductive Tok where
  | const
  | var
  | typ
  | imp
deriving DecidableEq, Repr

/-- Specs occurring inside a generic declaration. -/
inductive Spec where
  | typeS (s : TypeSpec)
  | valueS (names : List (String × Pos))
  | importS
deriving DecidableEq, Repr

/-- Generic (`const` / `var` / `type` / `import`) declaration group. -/
structure GenDecl where
  tok : Tok
  specs : List Spec
deriving DecidableEq, Repr

/-- Kind character chosen by the switch on `decl.Tok` in `genDecl`; the
rune stays at its zero value for any other token. -/
def valueKind (tok : Tok) : Char :=
  match tok with
  | .const => CONST
  | .var => VAR
  | _ => Char.ofNat 0

/-- Embeds `genDecl` of main.go: type specs are delegated to `typeSpec`,
value specs yield one tag per named identifier at the identifier's own
position, import specs yield nothing. -/
def genDecl (d : GenDecl) : List RawTag :=
  d.specs.flatMap (fun sp =>
    match sp with
    | .typeS ts => typeSpec ts
    | .valueS names => names.map (fun m => ⟨m.1, m.2, valueKind d.tok, ""⟩)
    | .importS => [])

/-- Top-level declaration: function declaration, generic declaration, or
any other declaration node (skipped by `handleDecls`). -/
inductive Decl where
  | funcD (d : FuncDecl)
  | genD (d : GenDecl)
  | badD
deriving DecidableEq, Repr

/-- Embeds `handleDecls` of main.go: classify every top-level declaration
of a file, in order. -/
def handleDecls (decls : List Decl) : List RawTag :=
  decls.flatMap (fun d =>
    match d with
    | .funcD f => funcDecl f
    | .genD g => genDecl g
    | .badD => [])

/-- Embeds one `bufio.Reader.ReadBytes` call with the newline delimiter:
returns the chunk read (delimiter included when found), the remaining
content, and whether end of input was hit before a delimiter was found. -/
def readLine : List Char → List Char × List Char × Bool
  | [] => ([], [], true)
  | ch :: rest =>
      if ch = '\n' then (['\n'], rest, false)
      else (ch :: (readLine rest).1, (readLine rest).2.1, (readLine rest).2.2)

/-- Embeds the reader loop of `contentOfLine`, with explicit fuel (one
unit per `ReadBytes` call); `none` means the fuel ran out before either
return statement was reached. -/
def colLoop : Nat → Int → Int → List Char → Option (List Char)
  | 0, _, _, _ => none
  | fuel + 1, ln, line, rem =>
      if (readLine rem).2.2 = true ∧ ln < line then some []
      else if ln = line then
        some (if 0 < (readLine rem).1.length then (readLine rem).1.dropLast
          else (readLine rem).1)
      else colLoop fuel (ln + 1) line (readLine rem).2.1

/-- Embeds `contentOfLine` of main.go: `none` content stands for a file
that cannot be opened (return empty).  For a readable file the reader
loop runs with `line` units of fuel, which the termination theorem shows
to be enough whenever `1 ≤ line`. -/
def contentOfLine (line : Int) (file : Option (List Char)) : List Char :=
  match file with
  | none => []
  | some content => (colLoop line.toNat 1 line content).getD []

/-- File system seen by the line resolver: path to content, `none` when
the file cannot be opened. -/
def FS : Type := String → Option (List Char)

/-- Embeds the `fmt.Sprintf` format of `emitTag`: name, file, search
pattern, kind character and scope, joined by tabs. -/
def emitTagLine (fs : FS) (t : RawTag) : String :=
  t.name ++ "\t" ++ t.pos.filename ++ "\t/^"
    ++ String.mk (contentOfLine t.pos.line (fs t.pos.filename))
    ++ "$/;\"\t" ++ String.mk [t.kind] ++ "\t" ++ t.scope

/-- Embeds `emitTag` of main.go: append the formatted line to the tag
collection. -/
def emitTag (fs : FS) (tags : List String) (t : RawTag) : List String :=
  tags ++ [emitTagLine fs t]

/-- Parsed Go source file: its package clause name and top-level
declaration list. -/
structure GoFile where
  pkgName : String
  decls : List Decl
deriving DecidableEq, Repr

/-- Go map insertion for `pkg.Files` (keyed by file name, modelled as an
association list in insertion order; an existing key is overwritten). -/
def updFiles (files : List (String × GoFile)) (fname : String) (f : GoFile) :
    List (String × GoFile) :=
  if files.any (fun e => e.1 = fname) then
    files.map (fun e => if e.1 = fname then (fname, f) else e)
  else files ++ [(fname, f)]

/-- Go map insertion for the `pkgs` map (keyed by package name, modelled
as an association list in insertion order). -/
def updPkgs (pkgs : List (String × List (String × GoFile))) (pkgName fname : String)
    (f : GoFile) : List (String × List (String × GoFile)) :=
  if pkgs.any (fun e => e.1 = pkgName) then
    pkgs.map (fun e => if e.1 = pkgName then (e.1, updFiles e.2 fname f) else e)
  else pkgs ++ [(pkgName, [(fname, f)])]

/-- Body of the parse loop of `parseFiles` of main.go, acting on the
accumulator (package map so far, first retained error so far).  Each
input is a file path with the parser's verdict (`Except`: parsed file or
parse error).  A parsed file is inserted into the package map; an error
is retained only when no earlier error was. -/
def parseStep (acc : List (String × List (String × GoFile)) × Option String)
    (inp : String × Except String GoFile) :
    List (String × List (String × GoFile)) × Option String :=
  match inp.2 with
  | .ok src => (updPkgs acc.1 src.pkgName inp.1 src, acc.2)
  | .error e =>
      match acc.2 with
      | none => (acc.1, some e)
      | some e0 => (acc.1, some e0)

/-- Loop of `parseFiles`: fold the per-file step over the input list,
starting from an empty package map and no retained error. -/
def parseFiles (inputs : List (String × Except String GoFile)) :
    List (String × List (String × GoFile)) × Option String :=
  inputs.foldl parseStep ([], none)

/-- Embeds `printTagsHeader` of main.go: the five header pragma lines, in
output order. -/
def printTagsHeader : List String :=
  [TAG_FILE_FORMAT, TAG_FILE_SORTED, TAG_PROGRAM_AUTHOR, TAG_PROGRAM_NAME, TAG_PROGRAM_URL]

/-- Byte-wise lexicographic less-or-equal on character lists, the order
underlying Go string comparison (for valid UTF-8, byte order and
code-point order agree). -/
def listLe : List Char → List Char → Bool
  | [], _ => true
  | _ :: _, [] => false
  | a :: as, b :: bs =>
      if a.toNat < b.toNat then true
      else if b.toNat < a.toNat then false
      else listLe as bs

/-- Lexicographic less-or-equal on strings, as used by `sort.Strings`. -/
def strLe (a b : String) : Prop := listLe a.data b.data = true

instance : DecidableRel strLe := fun a b => by unfold strLe; infer_instance

/-- Embeds `sort.Strings` of main.go: sort the collected tag lines into
ascending lexicographic order. -/
def sortStrings (l : List String) : List String := List.insertionSort strLe l

/-- Embeds the tag-accumulation phase of `main`: walk the package map
produced by `parseFiles`, classify the declarations of every file, and
synthesize one line per tag. -/
def mainTags (fs : FS) (inputs : List (String × Except String GoFile)) : List String :=
  (parseFiles inputs).1.flatMap
    (fun pkg => pkg.2.flatMap
      (fun file => (handleDecls file.2.decls).map (emitTagLine fs)))

/-- Embeds the output of `main`: the header block followed by the sorted
tag lines. -/
def mainOutput (fs : FS) (inputs : List (String × Except String GoFile)) : List String :=
  printTagsHeader ++ sortStrings (mainTags fs inputs)

/-- Sample file system used to instantiate theorems at concrete inputs. -/
def sampleFS : FS := fun p => if p = "a.go" then some ("func Foo() {}\n".data) else none

/-- Sample parsed file in package main. -/
def sampleFileA : GoFile := ⟨"main", [Decl.funcD ⟨"Foo", ⟨"a.go", 1⟩, none⟩]⟩

/-- Sample parsed file in a second package. -/
def sampleFileB : GoFile := ⟨"other", [Decl.funcD ⟨"Bar", ⟨"b.go", 1⟩, none⟩]⟩

/-- Sample struct type declaration used to instantiate theorems. -/
def sampleStruct : TypeSpec :=
  ⟨"Point", TypeExpr.structType ⟨"a.go", 1⟩ [[("X", ⟨"a.go", 2⟩), ("Y", ⟨"a.go", 3⟩)], []]⟩

/-- Error component of a parse verdict. -/
def errOf (r : Except String GoFile) : Option String :=
  match r with
  | .error e => some e
  | .ok _ => none

/-- Success test of a parse verdict. -/
def isOk (r : Except String GoFile) : Bool :=
  match r with
  | .ok _ => true
  | .error _ => false

/-- Splits content into its lines, each line keeping its terminating
newline when it has one (accumulator: the partial current line). -/
def linesAux : List Char → List Char → List (List Char)
  | [], cur => if cur = [] then [] else [cur]
  | ch :: rest, cur =>
      if ch = '\n' then (cur ++ ['\n']) :: linesAux rest []
      else linesAux rest (cur ++ [ch])

/-- Lines of a file content: the chunks `readLine` would deliver, in
order; a final line without terminator still counts as a line. -/
def linesOf (c : List Char) : List (List Char) := linesAux c []

/-- Splits a character list at every tab, used to state the
field structure of an emitted record. -/
def splitTabs : List Char → List (List Char)
  | [] => [[]]
  | c :: rest =>
      match splitTabs rest with
      | [] => [[c]]
      | g :: gs => if c = '\t' then [] :: g :: gs else (c :: g) :: gs

theorem string_data_ext {a b : String} (h : a.data = b.data) : a = b := by
  cases a
  cases b
  exact congrArg String.mk h

theorem listLe_total (a : List Char) : ∀ b, listLe a b = true ∨ listLe b a = true := by
  induction a with
  | nil => exact fun _ => Or.inl rfl
  | cons x xs ih =>
    intro b
    cases b with
    | nil => exact Or.inr rfl
    | cons y ys =>
      simp only [listLe]
      rcases Nat.lt_trichotomy x.toNat y.toNat with h | h | h
      · exact Or.inl (by rw [if_pos h])
      · rw [if_neg (by omega), if_neg (by omega), if_neg (by omega), if_neg (by omega)]
        exact ih ys
      · exact Or.inr (by rw [if_pos h])

theorem listLe_trans (a : List Char) :
    ∀ b c, listLe a b = true → listLe b c = true → listLe a c = true := by
  induction a with
  | nil => intro b c _ _; rfl
  | cons x xs ih =>
    intro b c hab hbc
    cases b with
    | nil => simp [listLe] at hab
    | cons y ys =>
      cases c with
      | nil => simp [listLe] at hbc
      | cons z zs =>
        simp only [listLe] at hab hbc ⊢
        split_ifs at hab hbc ⊢ <;>
          first
          | rfl
          | omega
          | exact absurd hab (by decide)
          | exact absurd hbc (by decide)
          | exact ih ys zs hab hbc

theorem listLe_antisymm (a : List Char) :
    ∀ b, listLe a b = true → listLe b a = true → a = b := by
  induction a with
  | nil =>
    intro b hab hba
    cases b with
    | nil => rfl
    | cons y ys => simp [listLe] at hba
  | cons x xs ih =>
    intro b hab hba
    cases b with
    | nil => simp [listLe] at hab
    | cons y ys =>
      simp only [listLe] at hab hba
      rcases Nat.lt_trichotomy x.toNat y.toNat with h | h | h
      · rw [if_neg (by omega), if_pos h] at hba
        exact absurd hba (by decide)
      · rw [if_neg (by omega), if_neg (by omega)] at hab
        rw [if_neg (by omega), if_neg (by omega)] at hba
        have hn : x.toNat = y.toNat := by omega
        have hxy : x = y :=
          Char.eq_of_val_eq (UInt32.eq_of_toBitVec_eq (BitVec.eq_of_toNat_eq hn))
        rw [hxy, ih ys hab hba]
      · rw [if_neg (by omega), if_pos h] at hab
        exact absurd hab (by decide)

instance : IsTotal String strLe := ⟨fun a b => listLe_total a.data b.data⟩

instance : IsTrans String strLe := ⟨fun a b c => listLe_trans a.data b.data c.data⟩

instance : IsAntisymm String strLe :=
  ⟨fun a b hab hba => string_data_ext (listLe_antisymm a.data b.data hab hba)⟩

theorem sortStrings_sorted (l : List String) : List.Sorted strLe (sortStrings l) :=
  List.sorted_insertionSort strLe l

theorem sortStrings_perm (l : List String) : (sortStrings l).Perm l :=
  List.perm_insertionSort strLe l

theorem sortStrings_eq_of_perm (a b : List String) (h : a.Perm b) :
    sortStrings a = sortStrings b :=
  List.eq_of_perm_of_sorted ((sortStrings_perm a).trans (h.trans (sortStrings_perm b).symm))
    (sortStrings_sorted a) (sortStrings_sorted b)

/-- C3: in the emitted output, the tag lines following the five header
lines are in byte-wise lexicographic order: the body of `mainOutput` is
`sortStrings (mainTags fs inputs)`, and for all positions `i < j` of that
body, line `i` is lexicographically at most line `j`. -/
theorem mainOutput_body_sorted (fs : FS) (inputs : List (String × Except String GoFile))
    (i j : Nat) (hij : i < j) (hj : j < (sortStrings (mainTags fs inputs)).length) :
    (mainOutput fs inputs).drop 5 = sortStrings (mainTags fs inputs) ∧
    strLe ((sortStrings (mainTags fs inputs)).getD i "")
      ((sortStrings (mainTags fs inputs)).getD j "") := by
  have hi : i < (sortStrings (mainTags fs inputs)).length := Nat.lt_trans hij hj
  constructor
  · have h5 : printTagsHeader.length = 5 := rfl
    rw [mainOutput, ← h5, List.drop_left]
  · have hs := sortStrings_sorted (mainTags fs inputs)
    have hrel : strLe ((sortStrings (mainTags fs inputs)).get ⟨i, hi⟩)
        ((sortStrings (mainTags fs inputs)).get ⟨j, hj⟩) :=
      hs.rel_get_of_lt (Fin.mk_lt_mk.mpr hij)
    rw [List.getD_eq_getElem _ _ hi, List.getD_eq_getElem _ _ hj]
    simpa [List.get_eq_getElem] using hrel

/-- Witness for C3 at a concrete run with two tag lines. -/
theorem mainOutput_body_sorted_w :
    ((mainOutput sampleFS [("a.go", .ok sampleFileA), ("b.go", .ok sampleFileB)]).drop 5 =
      sortStrings (mainTags sampleFS [("a.go", .ok sampleFileA), ("b.go", .ok sampleFileB)])) ∧
    strLe ((sortStrings (mainTags sampleFS
        [("a.go", .ok sampleFileA), ("b.go", .ok sampleFileB)])).getD 0 "")
      ((sortStrings (mainTags sampleFS
        [("a.go", .ok sampleFileA), ("b.go", .ok sampleFileB)])).getD 1 "") :=
  mainOutput_body_sorted sampleFS [("a.go", .ok sampleFileA), ("b.go", .ok sampleFileB)]
    0 1 (by decide) (by decide)

/-- C7: the emitted output is a deterministic function of the multiset of
synthesized tag lines: any two runs whose (internally unordered)
accumulated tag collections are permutations of each other produce
byte-identical output. -/
theorem mainOutput_deterministic (fs : FS) (inA inB : List (String × Except String GoFile))
    (h : (mainTags fs inA).Perm (mainTags fs inB)) :
    mainOutput fs inA = mainOutput fs inB := by
  unfold mainOutput
  rw [sortStrings_eq_of_perm _ _ h]

/-- Witness for C7: the same two files handed over in either order give
identical output. -/
theorem mainOutput_deterministic_w :
    mainOutput sampleFS [("a.go", .ok sampleFileA), ("b.go", .ok sampleFileB)] =
      mainOutput sampleFS [("b.go", .ok sampleFileB), ("a.go", .ok sampleFileA)] :=
  mainOutput_deterministic sampleFS _ _ (by decide)

theorem parseFold_fst_err_irrel (inputs : List (String × Except String GoFile)) :
    ∀ (pk : List (String × List (String × GoFile))) (e1 e2 : Option String),
      (inputs.foldl parseStep (pk, e1)).1 = (inputs.foldl parseStep (pk, e2)).1 := by
  induction inputs with
  | nil => intro pk e1 e2; rfl
  | cons inp rest ih =>
    intro pk e1 e2
    simp only [List.foldl_cons]
    cases hm : inp.2 with
    | ok src => simp only [parseStep, hm]; exact ih _ _ _
    | error e =>
      cases e1 <;> cases e2 <;> simp only [parseStep, hm] <;> exact ih _ _ _

theorem parseFold_fst_filter (inputs : List (String × Except String GoFile)) :
    ∀ (pk : List (String × List (String × GoFile))) (e : Option String),
      (inputs.foldl parseStep (pk, e)).1 =
        ((inputs.filter (fun p => isOk p.2)).foldl parseStep (pk, e)).1 := by
  induction inputs with
  | nil => intro pk e; rfl
  | cons inp rest ih =>
    intro pk e
    rcases inp with ⟨path, verdict⟩
    cases verdict with
    | ok src =>
      have hfil : ((path, Except.ok src) :: rest).filter (fun p => isOk p.2) =
          (path, Except.ok src) :: rest.filter (fun p => isOk p.2) := by
        simp [isOk]
      rw [hfil, List.foldl_cons, List.foldl_cons]
      exact ih _ _
    | error er =>
      have hfil : ((path, Except.error er) :: rest).filter (fun p => isOk p.2) =
          rest.filter (fun p => isOk p.2) := by
        simp [isOk]
      rw [hfil, List.foldl_cons]
      cases e with
      | none =>
        rw [show parseStep (pk, none) (path, Except.error er) = (pk, some er) from rfl]
        rw [parseFold_fst_err_irrel rest pk (some er) none]
        exact ih _ _
      | some e0 =>
        rw [show parseStep (pk, some e0) (path, Except.error er) = (pk, some e0) from rfl]
        exact ih _ _

theorem parseFold_snd_saturated (inputs : List (String × Except String GoFile)) :
    ∀ (pk : List (String × List (String × GoFile))) (e0 : String),
      (inputs.foldl parseStep (pk, some e0)).2 = some e0 := by
  induction inputs with
  | nil => intro pk e0; rfl
  | cons inp rest ih =>
    intro pk e0
    simp only [List.foldl_cons]
    cases hm : inp.2 with
    | ok src => simp only [parseStep, hm]; exact ih _ _
    | error e => simp only [parseStep, hm]; exact ih _ _

theorem parseFold_snd_first (inputs : List (String × Except String GoFile)) :
    ∀ (pk : List (String × List (String × GoFile))),
      (inputs.foldl parseStep (pk, none)).2 =
        (inputs.filterMap (fun p => errOf p.2)).head? := by
  induction inputs with
  | nil => intro pk; rfl
  | cons inp rest ih =>
    intro pk
    simp only [List.foldl_cons]
    cases hm : inp.2 with
    | ok src =>
      have he : errOf inp.2 = none := by rw [hm]; rfl
      simp only [List.filterMap_cons, he, parseStep, hm]
      exact ih _
    | error e =>
      have he : errOf inp.2 = some e := by rw [hm]; rfl
      simp only [List.filterMap_cons, he, parseStep, hm]
      exact parseFold_snd_saturated rest pk e

/-- C8: a file whose parse fails contributes no tags (the run over the
inputs equals the run over the successfully parsed inputs alone, both
for the package map and for the synthesized tag lines), and the first
parse error of the input list is the one retained by `parseFiles` as its
non-fatal diagnostic result. -/
theorem parseFiles_error_policy (fs : FS) (inputs : List (String × Except String GoFile)) :
    (parseFiles inputs).2 = (inputs.filterMap (fun p => errOf p.2)).head? ∧
    (parseFiles inputs).1 = (parseFiles (inputs.filter (fun p => isOk p.2))).1 ∧
    mainTags fs inputs = mainTags fs (inputs.filter (fun p => isOk p.2)) := by
  refine ⟨parseFold_snd_first inputs [], parseFold_fst_filter inputs [] none, ?_⟩
  unfold mainTags parseFiles
  rw [parseFold_fst_filter inputs [] none]

/-- C9: with zero successfully parsed input files the run still completes
and emits exactly the five fixed header pragma lines followed by an
empty tag body. -/
theorem mainOutput_no_valid_files (fs : FS) (inputs : List (String × Except String GoFile))
    (h : ∀ p ∈ inputs, isOk p.2 = false) :
    mainOutput fs inputs =
      [TAG_FILE_FORMAT, TAG_FILE_SORTED, TAG_PROGRAM_AUTHOR, TAG_PROGRAM_NAME,
        TAG_PROGRAM_URL] ∧
    (mainOutput fs inputs).length = 5 ∧ mainTags fs inputs = [] := by
  have hfil : inputs.filter (fun p => isOk p.2) = [] := by
    rw [List.filter_eq_nil_iff]
    intro p hp
    simp [h p hp]
  have htags : mainTags fs inputs = [] := by
    unfold mainTags parseFiles
    rw [parseFold_fst_filter inputs [] none, hfil]
    rfl
  refine ⟨?_, ?_, htags⟩
  · rw [mainOutput, htags]
    rfl
  · rw [mainOutput, htags]
    rfl

/-- Witness for C9: a run on a single unparseable file. -/
theorem mainOutput_no_valid_files_w :
    mainOutput sampleFS [("bad.go", .error "bad.go:1:1: expected package")] =
      [TAG_FILE_FORMAT, TAG_FILE_SORTED, TAG_PROGRAM_AUTHOR, TAG_PROGRAM_NAME,
        TAG_PROGRAM_URL] ∧
    (mainOutput sampleFS [("bad.go", .error "bad.go:1:1: expected package")]).length = 5 ∧
    mainTags sampleFS [("bad.go", .error "bad.go:1:1: expected package")] = [] :=
  mainOutput_no_valid_files sampleFS [("bad.go", .error "bad.go:1:1: expected package")]
    (by decide)

theorem readLine_eof (c : List Char) (h : (readLine c).2.2 = true) :
    (readLine c).1 = c ∧ (readLine c).2.1 = [] := by
  induction c with
  | nil => exact ⟨rfl, rfl⟩
  | cons ch rest ih =>
    by_cases hc : ch = '\n'
    · simp [readLine, hc] at h
    · simp only [readLine, if_neg hc] at h ⊢
      obtain ⟨h1, h2⟩ := ih h
      exact ⟨by rw [h1], h2⟩

theorem linesAux_readLine (c : List Char) :
    ∀ cur, linesAux c cur =
      if (readLine c).2.2 = true then
        (if cur ++ (readLine c).1 = [] then [] else [cur ++ (readLine c).1])
      else (cur ++ (readLine c).1) :: linesAux (readLine c).2.1 [] := by
  induction c with
  | nil => intro cur; simp [linesAux, readLine]
  | cons ch rest ih =>
    intro cur
    by_cases hc : ch = '\n'
    · subst hc
      simp [linesAux, readLine]
    · simp only [linesAux, readLine, if_neg hc]
      rw [ih (cur ++ [ch])]
      simp

theorem linesOf_cons (c : List Char) (h : c ≠ []) :
    linesOf c = (readLine c).1 :: linesOf (readLine c).2.1 := by
  unfold linesOf
  rw [linesAux_readLine c []]
  by_cases he : (readLine c).2.2 = true
  · obtain ⟨h1, h2⟩ := readLine_eof c he
    rw [if_pos he, h1, h2]
    simp [linesAux, h]
  · rw [if_neg he]
    simp

theorem colLoop_succeeds (fuel : Nat) :
    ∀ (ln line : Int) (c : List Char), 1 ≤ ln → ln ≤ line → line - ln < (fuel : Int) →
      ∃ v, colLoop fuel ln line c = some v := by
  induction fuel with
  | zero => intro ln line c h1 h2 h3; omega
  | succ fuel ih =>
    intro ln line c h1 h2 h3
    simp only [colLoop]
    by_cases he : (readLine c).2.2 = true ∧ ln < line
    · rw [if_pos he]
      exact ⟨[], rfl⟩
    · rw [if_neg he]
      by_cases hl : ln = line
      · rw [if_pos hl]
        exact ⟨_, rfl⟩
      · rw [if_neg hl]
        exact ih (ln + 1) line (readLine c).2.1 (by omega) (by omega) (by omega)

theorem colLoop_diverges (fuel : Nat) :
    ∀ (ln line : Int) (c : List Char), line ≤ 0 → 1 ≤ ln → colLoop fuel ln line c = none := by
  induction fuel with
  | zero => intro ln line c h0 h1; rfl
  | succ fuel ih =>
    intro ln line c h0 h1
    simp only [colLoop]
    rw [if_neg (fun hh => absurd hh.2 (by omega)), if_neg (show ln ≠ line by omega)]
    exact ih (ln + 1) line (readLine c).2.1 h0 (by omega)

theorem colLoop_beyond (fuel : Nat) :
    ∀ (ln line : Int) (c : List Char), 1 ≤ ln → ln ≤ line →
      ((linesOf c).length : Int) + ln ≤ line → line - ln < (fuel : Int) →
      colLoop fuel ln line c = some [] := by
  induction fuel with
  | zero => intro ln line c h1 h2 h3 h4; omega
  | succ fuel ih =>
    intro ln line c h1 h2 h3 h4
    by_cases hc : c = []
    · subst hc
      by_cases hl : ln < line
      · simp [colLoop, readLine, hl]
      · have hl2 : ln = line := by omega
        simp [colLoop, readLine, hl, hl2]
    · have hlc := linesOf_cons c hc
      have hpos : 1 ≤ (linesOf c).length := by
        rw [hlc]
        simp
      have hln : ln < line := by omega
      simp only [colLoop]
      by_cases he : (readLine c).2.2 = true
      · rw [if_pos ⟨he, hln⟩]
      · rw [if_neg (fun hh => he hh.1), if_neg (show ln ≠ line by omega)]
        apply ih (ln + 1) line (readLine c).2.1 (by omega) (by omega) ?_ (by omega)
        have h3b : (((readLine c).1 :: linesOf (readLine c).2.1).length : Int) + ln ≤ line := by
          rw [← hlc]
          exact h3
        simp only [List.length_cons] at h3b
        push_cast at h3b ⊢
        omega

/-- C10: the reader loop of `contentOfLine` terminates for every file
content whenever the requested line number is at least 1 — fuel equal to
the line number (at most that many read iterations) produces a result —
and the precondition is necessary: for any requested line number at most
0 the loop never returns, whatever fuel it is given. -/
theorem contentOfLine_loop_termination :
    (∀ (line : Int) (c : List Char), 1 ≤ line →
      ∃ v, colLoop line.toNat 1 line c = some v) ∧
    (∀ (fuel : Nat) (ln line : Int) (c : List Char), line ≤ 0 → 1 ≤ ln →
      colLoop fuel ln line c = none) := by
  constructor
  · intro line c h1
    exact colLoop_succeeds line.toNat 1 line c le_rfl h1 (by omega)
  · exact fun fuel ln line c h0 h1 => colLoop_diverges fuel ln line c h0 h1

/-- Witness for C10 at a concrete content and line numbers 3 and -1. -/
theorem contentOfLine_loop_termination_w :
    (∃ v, colLoop (3 : Int).toNat 1 3 "ab".data = some v) ∧
    colLoop 5 2 (-1) "ab".data = none :=
  ⟨contentOfLine_loop_termination.1 3 "ab".data (by decide),
   contentOfLine_loop_termination.2 5 2 (-1) "ab".data (by decide) (by decide)⟩

theorem emitTagLine_empty (fs : FS) (t : RawTag)
    (h : contentOfLine t.pos.line (fs t.pos.filename) = []) :
    emitTagLine fs t =
      t.name ++ "\t" ++ t.pos.filename ++ "\t/^$/;\"\t" ++ String.mk [t.kind] ++ "\t"
        ++ t.scope := by
  unfold emitTagLine
  rw [h]
  apply string_data_ext
  have e1 : ("\t" : String).data = ['\t'] := rfl
  have e2 : ("\t/^" : String).data = ['\t', '/', '^'] := rfl
  have e3 : ("$/;\"\t" : String).data = ['$', '/', ';', '"', '\t'] := rfl
  have e4 : ("\t/^$/;\"\t" : String).data = ['\t', '/', '^', '$', '/', ';', '"', '\t'] := rfl
  have e5 : (String.mk ([] : List Char)).data = [] := rfl
  have e6 : (String.mk [t.kind]).data = [t.kind] := rfl
  simp [String.data_append, e1, e2, e3, e4, e5, e6]

/-- C5: when the file cannot be opened, or has fewer lines than the
requested 1-based line number, the line resolver returns the empty byte
sequence instead of failing, and `emitTag` still appends a record whose
search-pattern field is the well-formed empty pattern. -/
theorem lineResolution_failure_policy (line : Int) (c : List Char) (fs : FS)
    (tags : List String) (t : RawTag) :
    contentOfLine line none = [] ∧
    (1 ≤ line → ((linesOf c).length : Int) < line → contentOfLine line (some c) = []) ∧
    (fs t.pos.filename = none →
      emitTag fs tags t = tags ++
        [t.name ++ "\t" ++ t.pos.filename ++ "\t/^$/;\"\t" ++ String.mk [t.kind] ++ "\t"
          ++ t.scope]) ∧
    (1 ≤ t.pos.line →
      (∀ d, fs t.pos.filename = some d → ((linesOf d).length : Int) < t.pos.line) →
      emitTag fs tags t = tags ++
        [t.name ++ "\t" ++ t.pos.filename ++ "\t/^$/;\"\t" ++ String.mk [t.kind] ++ "\t"
          ++ t.scope]) := by
  have hempty : ∀ (ll : Int) (cc : List Char), 1 ≤ ll → ((linesOf cc).length : Int) < ll →
      contentOfLine ll (some cc) = [] := by
    intro ll cc h1 h2
    have hdef : contentOfLine ll (some cc) = (colLoop ll.toNat 1 ll cc).getD [] := rfl
    rw [hdef, colLoop_beyond ll.toNat 1 ll cc le_rfl h1 (by omega) (by omega)]
    rfl
  refine ⟨rfl, hempty line c, ?_, ?_⟩
  · intro hnone
    have hcl : contentOfLine t.pos.line (fs t.pos.filename) = [] := by
      rw [hnone]
      rfl
    unfold emitTag
    rw [emitTagLine_empty fs t hcl]
  · intro h1 hall
    have hcl : contentOfLine t.pos.line (fs t.pos.filename) = [] := by
      cases hfs : fs t.pos.filename with
      | none => rfl
      | some d => exact hempty _ d h1 (hall d hfs)
    unfold emitTag
    rw [emitTagLine_empty fs t hcl]

/-- Witness for C5: an unopenable file and a two-line request on a
one-line file. -/
theorem lineResolution_failure_policy_w :
    contentOfLine 2 (some ['a', '\n']) = [] ∧
    emitTag sampleFS [] ⟨"X", ⟨"gone.go", 3⟩, VAR, ""⟩ =
      ["X" ++ "\t" ++ "gone.go" ++ "\t/^$/;\"\t" ++ String.mk [VAR] ++ "\t" ++ ""] :=
  ⟨(lineResolution_failure_policy 2 ['a', '\n'] sampleFS [] ⟨"X", ⟨"gone.go", 3⟩, VAR, ""⟩).2.1
      (by decide) (by decide),
   (lineResolution_failure_policy 2 ['a', '\n'] sampleFS [] ⟨"X", ⟨"gone.go", 3⟩, VAR, ""⟩).2.2.1
      (by decide)⟩

/-- C4 (code evaluation at the failing input): on a file whose single
line "abc" has no trailing terminator, the resolver returns "ab" — the
final content byte is stripped along with the (absent) terminator — and
not the unmodified line "abc". -/
theorem contentOfLine_truncates_unterminated_final_line :
    contentOfLine 1 (some ['a', 'b', 'c']) = ['a', 'b'] ∧
    contentOfLine 2 (some ['a', '\n', 'b', 'c']) = ['b'] ∧
    contentOfLine 1 (some ['a', 'b', '\n']) = ['a', 'b'] := by
  decide

theorem splitTabs_ne_nil (l : List Char) : splitTabs l ≠ [] := by
  cases l with
  | nil => simp [splitTabs]
  | cons c rest =>
    rcases h : splitTabs rest with _ | ⟨g, gs⟩
    · simp [splitTabs, h]
    · by_cases hc : c = '\t' <;> simp [splitTabs, h, hc]

theorem splitTabs_no_tab (l : List Char) (h : '\t' ∈ l → False) : splitTabs l = [l] := by
  induction l with
  | nil => rfl
  | cons c rest ih =>
    have hc : c ≠ '\t' := fun he => h (by rw [he]; exact List.mem_cons_self _ _)
    have hr : splitTabs rest = [rest] := ih (fun hm => h (List.mem_cons_of_mem _ hm))
    simp [splitTabs, hr, hc]

theorem splitTabs_tab_append (a : List Char) :
    ∀ b, ('\t' ∈ a → False) → splitTabs (a ++ '\t' :: b) = a :: splitTabs b := by
  induction a with
  | nil =>
    intro b _
    rcases h : splitTabs b with _ | ⟨g, gs⟩
    · exact absurd h (splitTabs_ne_nil b)
    · simp [splitTabs, h]
  | cons c a2 ih =>
    intro b h
    have hc : c ≠ '\t' := fun he => h (by rw [he]; exact List.mem_cons_self _ _)
    have hr := ih b (fun hm => h (List.mem_cons_of_mem _ hm))
    simp [splitTabs, hr, hc]

theorem emitTagLine_data (fs : FS) (t : RawTag) :
    (emitTagLine fs t).data =
      t.name.data ++ '\t' :: (t.pos.filename.data ++ '\t' ::
        (('/' :: '^' :: (contentOfLine t.pos.line (fs t.pos.filename) ++ ['$', '/', ';', '"']))
          ++ '\t' :: ([t.kind] ++ '\t' :: t.scope.data))) := by
  unfold emitTagLine
  have e1 : ("\t" : String).data = ['\t'] := rfl
  have e2 : ("\t/^" : String).data = ['\t', '/', '^'] := rfl
  have e3 : ("$/;\"\t" : String).data = ['$', '/', ';', '"', '\t'] := rfl
  have e7 : ∀ l : List Char, (String.mk l).data = l := fun _ => rfl
  simp [String.data_append, e1, e2, e3, e7]

/-- C6: every emitted record is the five tab-separated fields name, file
path, anchored raw search pattern, kind character and scope, in that
order; the resolved line content is embedded unescaped, and an empty
scope still occupies the fifth field after the final tab, so (tab-free
fields assumed) every record splits into exactly five fields. -/
theorem emitTag_record_format (fs : FS) (t : RawTag)
    (hn : '\t' ∈ t.name.data → False) (hf : '\t' ∈ t.pos.filename.data → False)
    (hs : '\t' ∈ t.scope.data → False)
    (hc : '\t' ∈ contentOfLine t.pos.line (fs t.pos.filename) → False)
    (hk : t.kind ≠ '\t') :
    emitTagLine fs t =
      t.name ++ "\t" ++ t.pos.filename ++ "\t/^"
        ++ String.mk (contentOfLine t.pos.line (fs t.pos.filename))
        ++ "$/;\"\t" ++ String.mk [t.kind] ++ "\t" ++ t.scope ∧
    splitTabs (emitTagLine fs t).data =
      [t.name.data, t.pos.filename.data,
        '/' :: '^' :: (contentOfLine t.pos.line (fs t.pos.filename) ++ ['$', '/', ';', '"']),
        [t.kind], t.scope.data] ∧
    (splitTabs (emitTagLine fs t).data).length = 5 := by
  have hpatt : '\t' ∈ ('/' :: '^' ::
      (contentOfLine t.pos.line (fs t.pos.filename) ++ ['$', '/', ';', '"'])) → False := by
    intro hm
    rcases List.mem_cons.mp hm with he | hm2
    · exact absurd he (by decide)
    rcases List.mem_cons.mp hm2 with he | hm3
    · exact absurd he (by decide)
    rcases List.mem_append.mp hm3 with hin | hin
    · exact hc hin
    · exact absurd hin (by decide)
  have hkind : '\t' ∈ [t.kind] → False := fun hm =>
    hk (List.mem_singleton.mp hm).symm
  have hsp : splitTabs (emitTagLine fs t).data =
      [t.name.data, t.pos.filename.data,
        '/' :: '^' :: (contentOfLine t.pos.line (fs t.pos.filename) ++ ['$', '/', ';', '"']),
        [t.kind], t.scope.data] := by
    rw [emitTagLine_data]
    rw [splitTabs_tab_append _ _ hn]
    rw [splitTabs_tab_append _ _ hf]
    rw [splitTabs_tab_append _ _ hpatt]
    rw [splitTabs_tab_append _ _ hkind]
    rw [splitTabs_no_tab _ hs]
  exact ⟨rfl, hsp, by rw [hsp]; rfl⟩

/-- Witness for C6 at a concrete tag with empty scope. -/
theorem emitTag_record_format_w :
    (splitTabs (emitTagLine sampleFS ⟨"Foo", ⟨"a.go", 1⟩, FUNC, ""⟩).data).length = 5 :=
  (emitTag_record_format sampleFS ⟨"Foo", ⟨"a.go", 1⟩, FUNC, ""⟩ (by decide) (by decide)
    (by decide) (by decide) (by decide)).2.2

/-- C1: a function declaration yields exactly one tag of kind Function;
with a receiver the scope is class-colon followed by the receiver type
name (one level of pointer indirection stripped, selector chains joined
with dots recursively at any depth, a pointer receiver giving the same
name as the corresponding value receiver); without a receiver the scope
is empty. -/
theorem funcDecl_classification (d : FuncDecl) :
    (funcDecl d).map RawTag.kind = [FUNC] ∧
    (∀ rt, d.recv = some rt → (funcDecl d).map RawTag.scope = ["class:" ++ typeName rt]) ∧
    (d.recv = none → (funcDecl d).map RawTag.scope = [""]) ∧
    (∀ x s, typeName (GoExpr.sel x s) = typeName x ++ "." ++ s) ∧
    (∀ n, typeName (GoExpr.star (GoExpr.ident n)) = typeName (GoExpr.ident n)) ∧
    (∀ x s, typeName (GoExpr.star (GoExpr.sel x s)) = typeName (GoExpr.sel x s)) := by
  refine ⟨?_, ?_, ?_, ?_, ?_, ?_⟩
  · simp [funcDecl]
  · intro rt h
    simp [funcDecl, h]
  · intro h
    simp [funcDecl, h]
  · intro x s
    rfl
  · intro n
    rfl
  · intro x s
    rfl

/-- Witness for C1: a method with a doubly qualified pointer receiver. -/
theorem funcDecl_classification_w :
    (funcDecl ⟨"String", ⟨"a.go", 10⟩,
        some (GoExpr.star (GoExpr.sel (GoExpr.ident "Outer") "Inner"))⟩).map RawTag.scope =
      ["class:" ++ typeName (GoExpr.star (GoExpr.sel (GoExpr.ident "Outer") "Inner"))] :=
  (funcDecl_classification ⟨"String", ⟨"a.go", 10⟩,
      some (GoExpr.star (GoExpr.sel (GoExpr.ident "Outer") "Inner"))⟩).2.1
    (GoExpr.star (GoExpr.sel (GoExpr.ident "Outer") "Inner")) rfl

theorem length_flatMap_map {α β : Type} (gs : List (List α)) (f : α → β) :
    (gs.flatMap (fun g => g.map f)).length = (gs.map List.length).sum := by
  induction gs with
  | nil => rfl
  | cons g gs ih => simp [ih]

/-- C2: a struct type declaration yields one Struct tag for the type
name followed by one Member tag per named field across all field groups
(scope struct-colon type name); an interface yields one Class tag plus
one Function tag per named method (scope class-colon type name); any
other type expression yields exactly one Type tag with empty scope;
groups without names contribute nothing. -/
theorem typeSpec_classification (s : TypeSpec) :
    (∀ p fields, s.ty = TypeExpr.structType p fields →
      (typeSpec s).length = 1 + (fields.map List.length).sum ∧
      (typeSpec s).head? = some ⟨s.name, p, STRUCT, ""⟩ ∧
      ∀ t ∈ (typeSpec s).tail, t.kind = MEMBER ∧ t.scope = "struct:" ++ s.name) ∧
    (∀ p methods, s.ty = TypeExpr.interfaceType p methods →
      (typeSpec s).length = 1 + (methods.map List.length).sum ∧
      (typeSpec s).head? = some ⟨s.name, p, CLASS, ""⟩ ∧
      ∀ t ∈ (typeSpec s).tail, t.kind = FUNC ∧ t.scope = "class:" ++ s.name) ∧
    (∀ p, s.ty = TypeExpr.otherType p → typeSpec s = [⟨s.name, p, TYPE, ""⟩]) := by
  refine ⟨?_, ?_, ?_⟩
  · intro p fields h
    refine ⟨?_, ?_, ?_⟩
    · simp only [typeSpec, h, List.length_cons]
      rw [length_flatMap_map]
      omega
    · simp [typeSpec, h]
    · intro t ht
      simp only [typeSpec, h, List.tail_cons] at ht
      simp only [List.mem_flatMap, List.mem_map] at ht
      obtain ⟨g, _, m, _, hEq⟩ := ht
      rw [← hEq]
      exact ⟨rfl, rfl⟩
  · intro p methods h
    refine ⟨?_, ?_, ?_⟩
    · simp only [typeSpec, h, List.length_cons]
      rw [length_flatMap_map]
      omega
    · simp [typeSpec, h]
    · intro t ht
      simp only [typeSpec, h, List.tail_cons] at ht
      simp only [List.mem_flatMap, List.mem_map] at ht
      obtain ⟨g, _, m, _, hEq⟩ := ht
      rw [← hEq]
      exact ⟨rfl, rfl⟩
  · intro p h
    simp [typeSpec, h]

/-- Witness for C2: a struct with two named fields and one empty group. -/
theorem typeSpec_classification_w :
    (typeSpec sampleStruct).length =
      1 + (([[("X", (⟨"a.go", 2⟩ : Pos)), ("Y", (⟨"a.go", 3⟩ : Pos))],
        ([] : List (String × Pos))]).map List.length).sum ∧
    (typeSpec sampleStruct).head? = some ⟨sampleStruct.name, ⟨"a.go", 1⟩, STRUCT, ""⟩ ∧
    ∀ t ∈ (typeSpec sampleStruct).tail,
      t.kind = MEMBER ∧ t.scope = "struct:" ++ sampleStruct.name :=
  (typeSpec_classification sampleStruct).1 ⟨"a.go", 1⟩
    [[("X", ⟨"a.go", 2⟩), ("Y", ⟨"a.go", 3⟩)], []] rfl

end Taggo
